import Mathlib

/-!
Verification development for the sentence-store layer of `trainer_interface.h`
(the modified sentencepiece trainer).  The C++ code keeps a LevelDB database
`sentences_db` mapping decimal-string keys (rendered from a monotonically
increasing counter `current_index_`) to values of the form
`text + '\0' + std::to_string(count)`.  We embed the byte-level behaviour of
those operations: byte strings are `List Nat`, LevelDB is modelled as an
association list kept sorted by the bytewise comparator (LevelDB's default),
and `std::to_string` / `std::stoll` are modelled at the digit level.
-/

deriving instance DecidableEq for Except

namespace sentencepiece

/-- A C++ `std::string` is a byte string; we model it as a list of byte values. -/
abbrev Str := List Nat

/-- The separator byte written between the text and the count: `'\0'`. -/
def NUL : Nat := 0

/-- Byte classification used by `std::stoll` (via `strtoll`): C whitespace. -/
def isSpaceByte (b : Nat) : Bool := b == 32 || b == 9 || b == 10 || b == 11 || b == 12 || b == 13

/-- ASCII decimal digit bytes `'0'`..`'9'`. -/
def isDigitByte (b : Nat) : Bool := 48 ≤ b && b ≤ 57

/-- The ASCII byte of the decimal digit `d` (for `d < 10`). -/
def digitByte (d : Nat) : Nat := 48 + d

/-- Numeric value of a digit byte. -/
def digitVal (b : Nat) : Nat := b - 48

/-- Fuel-driven core of `std::to_string` on an unsigned value: most significant
digit first.  With fuel larger than `n` this is the exact decimal rendering. -/
def natToStringAux : Nat → Nat → Str
  | 0, _ => []
  | fuel + 1, n =>
    if n < 10 then [digitByte n]
    else natToStringAux fuel (n / 10) ++ [digitByte (n % 10)]

/-- `std::to_string` on a non-negative value (as used for keys and counts). -/
def natToString (n : Nat) : Str := natToStringAux (n + 1) n

/-- `std::to_string` on an `int64_t` count: a `'-'` byte followed by the decimal
digits when negative. -/
def intToString (c : Int) : Str :=
  if c < 0 then 45 :: natToString c.natAbs else natToString c.toNat

/-- Value of a list of digit bytes read most-significant first. -/
def digitsToNat (l : Str) : Nat := l.foldl (fun a b => a * 10 + digitVal b) 0

/-- Digit-parsing core of `std::stoll`, after whitespace and sign handling:
parse the maximal leading run of digits (at least one is required) and check
the signed value against the 64-bit range. -/
def stollCore (neg : Bool) (s2 : Str) : Option Int :=
  let ds := s2.takeWhile isDigitByte
  if ds = [] then none
  else
    let v : Int := if neg then -(digitsToNat ds : Int) else (digitsToNat ds : Int)
    if v < -9223372036854775808 ∨ 9223372036854775808 ≤ v then none else some v

/-- `std::stoll`: skip C whitespace, accept one optional sign byte, then require
at least one digit; parse the maximal run of digits and stop at the first
non-digit.  Returns `none` where the C++ function throws
(`std::invalid_argument` when no digits are found, `std::out_of_range` when the
value does not fit in a signed 64-bit integer). -/
def stoll (s : Str) : Option Int :=
  match s.dropWhile isSpaceByte with
  | [] => none
  | b :: rest =>
    if b = 45 then stollCore true rest
    else if b = 43 then stollCore false rest
    else stollCore false (b :: rest)

/-- LevelDB's default bytewise comparator (`memcmp`, then shorter-is-smaller). -/
def strLt : Str → Str → Bool
  | [], [] => false
  | [], _ :: _ => true
  | _ :: _, [] => false
  | a :: as, b :: bs => a < b || (a == b && strLt as bs)

/-- The LevelDB database: an association list of key/value byte strings kept
sorted by `strLt`, which is the order `NewIterator` visits records in. -/
abbrev DB := List (Str × Str)

/-- `leveldb::DB::Get`: point lookup; `none` models the `NotFound` status. -/
def dbGet (db : DB) (k : Str) : Option Str :=
  match db with
  | [] => none
  | (k', v') :: rest => if k = k' then some v' else dbGet rest k

/-- `leveldb::DB::Put`: insert or overwrite, keeping the records in comparator
order (the order in which an iterator will subsequently visit them). -/
def dbPut (db : DB) (k v : Str) : DB :=
  match db with
  | [] => [(k, v)]
  | (k', v') :: rest =>
    if strLt k k' then (k, v) :: (k', v') :: rest
    else if k = k' then (k, v) :: rest
    else (k', v') :: dbPut rest k v

/-- `leveldb::DB::Delete`: removes the record with the given key, if present. -/
def dbDelete (db : DB) (k : Str) : DB :=
  match db with
  | [] => []
  | (k', v') :: rest => if k = k' then rest else (k', v') :: dbDelete rest k

/-- `using Sentence = std::pair<std::string, int64_t>`. -/
abbrev Sentence := Str × Int

/-- The mutable state of `TrainerInterface` relevant to the sentence store:
the LevelDB handle `db_` and the key counter `current_index_`. -/
structure TrainerState where
  db : DB
  current_index : Nat
deriving DecidableEq

/-- The state right after the constructor opens a fresh `sentences_db`. -/
def initState : TrainerState := ⟨[], 0⟩

/-- The value written for a sentence:
`sentence.first + '\0' + std::to_string(sentence.second)`. -/
def encodeSentence (s : Sentence) : Str := s.1 ++ NUL :: intToString s.2

/-- `addSentenceToDB` (success path): `Put(to_string(current_index_), value)`,
then `++current_index_`. -/
def addSentenceToDB (st : TrainerState) (s : Sentence) : TrainerState :=
  ⟨dbPut st.db (natToString st.current_index) (encodeSentence s), st.current_index + 1⟩

/-- `addSentenceToDB` with the LevelDB status made explicit: `writeOk` is
whether `db_->Put` returns an ok status.  When it does not, the exception is
thrown before `++current_index_` executes, so the object state is unchanged;
the second component carries the error message of the thrown exception. -/
def addSentenceToDBChecked (writeOk : Bool) (st : TrainerState) (s : Sentence) :
    TrainerState × Option String :=
  if writeOk then (addSentenceToDB st s, none)
  else (st, some "Failed to write to LevelDB")

/-- `removeSentenceFromDB`: `Delete(to_string(index))`. -/
def removeSentenceFromDB (st : TrainerState) (index : Nat) : TrainerState :=
  ⟨dbDelete st.db (natToString index), st.current_index⟩

/-- `updateSentenceInDB`: `Put(to_string(index), value)` with no existence
check; `current_index_` is not touched. -/
def updateSentenceInDB (st : TrainerState) (index : Nat) (s : Sentence) : TrainerState :=
  ⟨dbPut st.db (natToString index) (encodeSentence s), st.current_index⟩

/-- The three failure exits of `getSentenceFromDB`: `std::out_of_range` when
`Get` is not ok, `std::runtime_error("Corrupted value...")` when the value has
no `'\0'`, and the `std::stoll` exceptions on an unparseable count. -/
inductive GetErr where
  | notFound
  | corrupted
  | badCount
deriving DecidableEq

/-- Decoding a stored value: find the first `'\0'` (else the value is
corrupted), take the bytes before it as the text, and run `std::stoll` on the
bytes after it. -/
def decodeValue (v : Str) : Except GetErr (Str × Int) :=
  if NUL ∈ v then
    match stoll ((v.dropWhile (fun b => b != NUL)).tail) with
    | some c => .ok (v.takeWhile (fun b => b != NUL), c)
    | none => .error .badCount
  else .error .corrupted

/-- `getSentenceFromDB`: `Get(to_string(index))` then decode the value. -/
def getSentenceFromDB (st : TrainerState) (index : Nat) : Except GetErr (Str × Int) :=
  match dbGet st.db (natToString index) with
  | none => .error .notFound
  | some v => decodeValue v

/-- Whether `getSentenceFromDB` throws (any of its three exceptions). -/
def getFails (st : TrainerState) (index : Nat) : Bool :=
  match getSentenceFromDB st index with
  | .error _ => true
  | .ok _ => false

/-- `loadSentencesFromDB`: iterate the whole database in comparator order,
decoding every value; the first corrupted value aborts the scan. -/
def loadSentencesFromDB (st : TrainerState) : Except GetErr (List (Str × Int)) :=
  st.db.mapM (fun kv => decodeValue kv.2)

/-- The keys of the records in the order a full scan visits them. -/
def scanKeys (st : TrainerState) : List Str := st.db.map Prod.fst

/-- Running a sequence of successful `addSentenceToDB` calls on a fresh store. -/
def runInserts (ss : List Sentence) : TrainerState := ss.foldl addSentenceToDB initState

/-- A store operation, for invariants over arbitrary operation sequences. -/
inductive StoreOp where
  | ins : Sentence → StoreOp
  | upd : Nat → Sentence → StoreOp
  | del : Nat → StoreOp

/-- Apply one store operation. -/
def applyOp (st : TrainerState) : StoreOp → TrainerState
  | .ins s => addSentenceToDB st s
  | .upd i s => updateSentenceInDB st i s
  | .del i => removeSentenceFromDB st i

/-- Run a sequence of store operations on a fresh store. -/
def runOps (ops : List StoreOp) : TrainerState := ops.foldl applyOp initState

/-- The strict comparator passed to `std::sort` in `Sorted`:
`p1.second > p2.second || (p1.second == p2.second && p1.first < p2.first)`.
`pairLe p q` is the reflexive total order `¬ comp q p` that the sorted output
is non-decreasing in. -/
def pairLe {K V : Type} [LinearOrder K] [LinearOrder V] (p q : K × V) : Bool :=
  decide (q.2 < p.2) || (decide (p.2 = q.2) && decide (p.1 ≤ q.1))

/-- Sorted insertion of one pair (the building block of the sort). -/
def insertPair {K V : Type} [LinearOrder K] [LinearOrder V] (x : K × V) :
    List (K × V) → List (K × V)
  | [] => [x]
  | y :: ys => if pairLe x y then x :: y :: ys else y :: insertPair x ys

/-- The `Sorted` helper of `trainer_interface.h`: `std::sort` with the
comparator above.  `std::sort` produces some permutation ordered by the
comparator; we model it by insertion sort with the same comparator. -/
def Sorted {K V : Type} [LinearOrder K] [LinearOrder V] (m : List (K × V)) : List (K × V) :=
  m.foldr insertPair []

/-- The precondition under which the spec's `count ≥ 1` invariant can hold:
the operation passes a sentence with a positive count (`addSentenceToDB` and
`updateSentenceInDB` themselves perform no check). -/
def opCountOK : StoreOp → Bool
  | .ins s => 1 ≤ s.2
  | .upd _ s => 1 ≤ s.2
  | .del _ => true

/-- Every record of the database is the encoding of a sentence with a
positive count. -/
def goodDB (db : DB) : Prop :=
  ∀ kv ∈ db, ∃ t c, kv.2 = encodeSentence (t, c) ∧ 1 ≤ c

/-! ### Decimal rendering and parsing -/

theorem digitsToNat_append (xs : Str) (b : Nat) :
    digitsToNat (xs ++ [b]) = digitsToNat xs * 10 + digitVal b := by
  simp [digitsToNat, List.foldl_append]

theorem natToStringAux_spec : ∀ fuel n, n < fuel →
    (∀ b ∈ natToStringAux fuel n, isDigitByte b = true) ∧
    natToStringAux fuel n ≠ [] ∧ digitsToNat (natToStringAux fuel n) = n := by
  intro fuel
  induction fuel with
  | zero => intro n h; omega
  | succ f ih =>
    intro n h
    by_cases h10 : n < 10
    · refine ⟨?_, ?_, ?_⟩
      · intro b hb
        simp [natToStringAux, h10] at hb
        simp [hb, isDigitByte, digitByte]
        omega
      · simp [natToStringAux, h10]
      · simp [natToStringAux, h10, digitsToNat, digitVal, digitByte]
    · have hn0 : 0 < n := by omega
      have hd : n / 10 < f := by
        have hlt : n / 10 < n := Nat.div_lt_self hn0 (by omega)
        omega
      obtain ⟨ha, hb, hc⟩ := ih (n / 10) hd
      have hrw : natToStringAux (f + 1) n =
          natToStringAux f (n / 10) ++ [digitByte (n % 10)] := by
        simp [natToStringAux, h10]
      refine ⟨?_, ?_, ?_⟩
      · intro b hbm
        rw [hrw] at hbm
        rcases List.mem_append.mp hbm with hl | hr
        · exact ha b hl
        · have : b = digitByte (n % 10) := by simpa using hr
          have hm : n % 10 < 10 := Nat.mod_lt _ (by omega)
          simp [this, isDigitByte, digitByte]
          omega
      · rw [hrw]
        simp
      · rw [hrw, digitsToNat_append, hc, digitVal, digitByte]
        omega

theorem natToString_digits (n : Nat) : ∀ b ∈ natToString n, isDigitByte b = true :=
  (natToStringAux_spec (n + 1) n (Nat.lt_succ_self n)).1

theorem natToString_ne_nil (n : Nat) : natToString n ≠ [] :=
  (natToStringAux_spec (n + 1) n (Nat.lt_succ_self n)).2.1

theorem digitsToNat_natToString (n : Nat) : digitsToNat (natToString n) = n :=
  (natToStringAux_spec (n + 1) n (Nat.lt_succ_self n)).2.2

theorem natToString_injective : Function.Injective natToString := by
  intro a b h
  have := digitsToNat_natToString a
  rw [h, digitsToNat_natToString] at this
  omega

theorem takeWhile_all_eq (p : Nat → Bool) :
    ∀ l : Str, (∀ b ∈ l, p b = true) → l.takeWhile p = l := by
  intro l
  induction l with
  | nil => intro _; rfl
  | cons b bs ih =>
    intro hall
    have hb : p b = true := hall b (by simp)
    have hr : List.takeWhile p bs = bs := ih fun x hx => hall x (by simp [hx])
    simp [List.takeWhile_cons, hb, hr]

theorem not_space_of_digit {b : Nat} (h : isDigitByte b = true) : isSpaceByte b = false := by
  simp [isDigitByte] at h
  simp [isSpaceByte]
  omega

theorem stollCore_true_eval (l : Str) (hne : l ≠ [])
    (hd : ∀ b ∈ l, isDigitByte b = true) :
    stollCore true l =
      if -(digitsToNat l : Int) < -9223372036854775808 ∨
          9223372036854775808 ≤ -(digitsToNat l : Int) then none
      else some (-(digitsToNat l : Int)) := by
  rw [stollCore, takeWhile_all_eq _ _ hd, if_neg hne]
  rfl

theorem stollCore_false_eval (l : Str) (hne : l ≠ [])
    (hd : ∀ b ∈ l, isDigitByte b = true) :
    stollCore false l =
      if (digitsToNat l : Int) < -9223372036854775808 ∨
          9223372036854775808 ≤ (digitsToNat l : Int) then none
      else some (digitsToNat l : Int) := by
  rw [stollCore, takeWhile_all_eq _ _ hd, if_neg hne]
  rfl

theorem stoll_intToString (c : Int) (h1 : -9223372036854775808 ≤ c)
    (h2 : c < 9223372036854775808) : stoll (intToString c) = some c := by
  by_cases hneg : c < 0
  · have hs45 : isSpaceByte 45 = false := by decide
    have hdrop : (45 :: natToString c.natAbs).dropWhile isSpaceByte =
        45 :: natToString c.natAbs := by
      rw [List.dropWhile_cons, hs45]
      rfl
    have hval : (digitsToNat (natToString c.natAbs) : Int) = -c := by
      rw [digitsToNat_natToString]
      omega
    rw [intToString, if_pos hneg, stoll]
    rw [hdrop]
    show (if (45 : Nat) = 45 then stollCore true (natToString c.natAbs)
      else if (45 : Nat) = 43 then stollCore false (natToString c.natAbs)
      else stollCore false (45 :: natToString c.natAbs)) = some c
    rw [if_pos rfl]
    rw [stollCore_true_eval _ (natToString_ne_nil _) (natToString_digits _)]
    rw [hval]
    rw [if_neg (by push_neg; constructor <;> omega)]
    congr 1
    omega
  · have hge : 0 ≤ c := by omega
    have hrw : intToString c = natToString c.toNat := by
      rw [intToString, if_neg hneg]
    have hd := natToString_digits c.toNat
    obtain ⟨b, bs, hcons⟩ := List.exists_cons_of_ne_nil (natToString_ne_nil c.toNat)
    have hb : isDigitByte b = true := by
      apply hd
      rw [hcons]
      simp
    have hbr : 48 ≤ b ∧ b ≤ 57 := by
      rw [isDigitByte] at hb
      simp at hb
      exact hb
    have hs : isSpaceByte b = false := not_space_of_digit hb
    have hdrop : (b :: bs).dropWhile isSpaceByte = b :: bs := by
      rw [List.dropWhile_cons, hs]
      rfl
    have hval : (digitsToNat (b :: bs) : Int) = c := by
      have := digitsToNat_natToString c.toNat
      rw [hcons] at this
      rw [this]
      omega
    rw [hrw, hcons, stoll, hdrop]
    show (if b = 45 then stollCore true bs
      else if b = 43 then stollCore false bs
      else stollCore false (b :: bs)) = some c
    rw [if_neg (by omega), if_neg (by omega)]
    rw [stollCore_false_eval _ (by simp) (by rw [← hcons]; exact hd)]
    rw [hval]
    rw [if_neg (by push_neg; constructor <;> omega)]

/-! ### The bytewise comparator -/

theorem strLt_irrefl : ∀ a : Str, strLt a a = false := by
  intro a
  induction a with
  | nil => rfl
  | cons b bs ih => simp [strLt, ih]

theorem strLt_asymm : ∀ a b : Str, strLt a b = true → strLt b a = false := by
  intro a
  induction a with
  | nil =>
    intro b h
    cases b with
    | nil => simp [strLt] at h
    | cons c cs => rfl
  | cons x xs ih =>
    intro b h
    cases b with
    | nil => simp [strLt] at h
    | cons c cs =>
      simp [strLt] at h ⊢
      rcases h with h | ⟨heq, hrec⟩
      · constructor
        · omega
        · intro hcx
          omega
      · subst heq
        exact ⟨by omega, fun _ => ih cs hrec⟩

theorem strLt_ne {a b : Str} (h : strLt a b = true) : a ≠ b := by
  intro heq
  subst heq
  rw [strLt_irrefl] at h
  cases h

/-! ### Database lemmas -/

theorem dbGet_dbPut_same (db : DB) (k v : Str) : dbGet (dbPut db k v) k = some v := by
  induction db with
  | nil => simp [dbPut, dbGet]
  | cons kv rest ih =>
    obtain ⟨k', v'⟩ := kv
    by_cases hlt : strLt k k' = true
    · simp [dbPut, hlt, dbGet]
    · by_cases heq : k = k'
      · subst heq
        simp [dbPut, strLt_irrefl, dbGet]
      · simp [dbPut, hlt, heq, dbGet, ih]

theorem dbGet_dbPut_ne (db : DB) (k v k0 : Str) (h : k0 ≠ k) :
    dbGet (dbPut db k v) k0 = dbGet db k0 := by
  induction db with
  | nil => simp [dbPut, dbGet, h]
  | cons kv rest ih =>
    obtain ⟨k', v'⟩ := kv
    by_cases hlt : strLt k k' = true
    · simp [dbPut, hlt, dbGet, h]
    · by_cases heq : k = k'
      · subst heq
        simp [dbPut, hlt, dbGet, h]
      · simp [dbPut, hlt, heq, dbGet, ih]

theorem length_dbPut_of_get_none (db : DB) (k v : Str) (h : dbGet db k = none) :
    (dbPut db k v).length = db.length + 1 := by
  induction db with
  | nil => simp [dbPut]
  | cons kv rest ih =>
    obtain ⟨k', v'⟩ := kv
    by_cases heq : k = k'
    · rw [dbGet, if_pos heq] at h
      cases h
    · rw [dbGet, if_neg heq] at h
      by_cases hlt : strLt k k' = true
      · simp [dbPut, hlt]
      · simp [dbPut, hlt, heq, ih h]

theorem mem_dbPut (db : DB) (k v : Str) (x : Str × Str) (h : x ∈ dbPut db k v) :
    x = (k, v) ∨ x ∈ db := by
  induction db with
  | nil =>
    simp [dbPut] at h
    exact Or.inl h
  | cons kv rest ih =>
    obtain ⟨k', v'⟩ := kv
    by_cases hlt : strLt k k' = true
    · simp [dbPut, hlt] at h
      rcases h with h | h | h
      · exact Or.inl h
      · exact Or.inr (by simp [h])
      · exact Or.inr (by simp [h])
    · by_cases heq : k = k'
      · subst heq
        simp [dbPut, strLt_irrefl] at h
        rcases h with h | h
        · exact Or.inl (by simp [h])
        · exact Or.inr (by simp [h])
      · simp [dbPut, hlt, heq] at h
        rcases h with h | h
        · exact Or.inr (by simp [h])
        · rcases ih h with h' | h'
          · exact Or.inl h'
          · exact Or.inr (by simp [h'])

theorem mem_dbDelete (db : DB) (k : Str) (x : Str × Str) (h : x ∈ dbDelete db k) :
    x ∈ db := by
  induction db with
  | nil => simp [dbDelete] at h
  | cons kv rest ih =>
    obtain ⟨k', v'⟩ := kv
    by_cases heq : k = k'
    · simp [dbDelete, heq] at h
      simp [h]
    · simp [dbDelete, heq] at h
      rcases h with h | h
      · simp [h]
      · simp [ih h]

theorem dbPut_append_of_lt (db : DB) (k v : Str)
    (h : ∀ kv ∈ db, strLt kv.1 k = true) : dbPut db k v = db ++ [(k, v)] := by
  induction db with
  | nil => rfl
  | cons kv rest ih =>
    obtain ⟨k', v'⟩ := kv
    have hk' : strLt k' k = true := h (k', v') (by simp)
    have hlt : ¬ strLt k k' = true := by
      rw [strLt_asymm k' k hk']
      exact Bool.false_ne_true
    have heq : ¬ k = k' := fun he => strLt_ne hk' he.symm
    rw [dbPut]
    rw [if_neg hlt, if_neg heq]
    rw [ih fun x hx => h x (by simp [hx])]
    rfl

/-! ### Encoding and decoding of sentence records -/

theorem takeWhile_append_of_not (p : Nat → Bool) (t r : Str) (hp : p NUL = false) :
    (t ++ NUL :: r).takeWhile p = t.takeWhile p := by
  induction t with
  | nil => simp [List.takeWhile_cons, hp]
  | cons b bs ih =>
    by_cases hb : p b = true
    · simp [List.takeWhile_cons, hb, ih]
    · simp at hb
      simp [List.takeWhile_cons, hb]

theorem dropWhile_append_of_all (p : Nat → Bool) (t r : Str)
    (ht : ∀ b ∈ t, p b = true) (hp : p NUL = false) :
    ((t ++ NUL :: r).dropWhile p) = NUL :: r := by
  induction t with
  | nil => simp [List.dropWhile_cons, hp]
  | cons b bs ih =>
    have hb : p b = true := ht b (by simp)
    have := ih fun x hx => ht x (by simp [hx])
    simp [List.dropWhile_cons, hb, this]

theorem nulFree_bne (t : Str) (h : NUL ∉ t) : ∀ b ∈ t, (b != NUL) = true := by
  intro b hb
  have : b ≠ NUL := fun he => h (he ▸ hb)
  simpa using this

theorem decodeValue_encodeSentence_of_nulFree (t : Str) (c : Int) (h : NUL ∉ t)
    (h1 : -9223372036854775808 ≤ c) (h2 : c < 9223372036854775808) :
    decodeValue (encodeSentence (t, c)) = Except.ok (t, c) := by
  have hmem : NUL ∈ t ++ NUL :: intToString c := by simp
  have hp : (NUL != NUL) = false := by simp
  have htake : (t ++ NUL :: intToString c).takeWhile (fun b => b != NUL) = t := by
    rw [takeWhile_append_of_not (fun b => b != NUL) t (intToString c) hp]
    exact takeWhile_all_eq _ t (nulFree_bne t h)
  have hdrop : (t ++ NUL :: intToString c).dropWhile (fun b => b != NUL) =
      NUL :: intToString c :=
    dropWhile_append_of_all (fun b => b != NUL) t (intToString c) (nulFree_bne t h) hp
  rw [encodeSentence]
  rw [decodeValue, if_pos hmem, hdrop]
  simp only [List.tail_cons]
  rw [stoll_intToString c h1 h2, htake]

theorem decodeValue_encodeSentence_fst (t : Str) (c : Int) (t' : Str) (c' : Int)
    (h : decodeValue (encodeSentence (t, c)) = Except.ok (t', c')) :
    t' = t.takeWhile (fun b => b != NUL) := by
  have hmem : NUL ∈ t ++ NUL :: intToString c := by simp
  have hp : (NUL != NUL) = false := by simp
  have htake : (t ++ NUL :: intToString c).takeWhile (fun b => b != NUL) =
      t.takeWhile (fun b => b != NUL) :=
    takeWhile_append_of_not (fun b => b != NUL) t (intToString c) hp
  rw [encodeSentence, decodeValue, if_pos hmem] at h
  rcases hst : stoll ((t ++ NUL :: intToString c).dropWhile (fun b => b != NUL)).tail with
    _ | c0
  · rw [hst] at h
    cases h
  · rw [hst] at h
    rw [htake] at h
    cases h
    rfl

/-! ### Sequences of inserts on a fresh store -/

theorem runInserts_append (ss : List Sentence) (s : Sentence) :
    runInserts (ss ++ [s]) = addSentenceToDB (runInserts ss) s := by
  simp [runInserts, List.foldl_append]

theorem current_index_foldl (ss : List Sentence) (st : TrainerState) :
    (ss.foldl addSentenceToDB st).current_index = st.current_index + ss.length := by
  induction ss generalizing st with
  | nil => simp
  | cons s rest ih =>
    rw [List.foldl_cons, ih]
    simp [addSentenceToDB]
    omega

theorem runInserts_current_index (ss : List Sentence) :
    (runInserts ss).current_index = ss.length := by
  rw [runInserts, current_index_foldl]
  simp [initState]

theorem runInserts_get (ss : List Sentence) :
    ∀ i, (h : i < ss.length) → dbGet (runInserts ss).db (natToString i) =
      some (encodeSentence (ss.get ⟨i, h⟩)) := by
  induction ss using List.reverseRecOn with
  | nil =>
    intro i h
    simp at h
  | append_singleton ss s ih =>
    intro i h
    rw [runInserts_append]
    simp only [addSentenceToDB]
    by_cases hi : i < ss.length
    · rw [dbGet_dbPut_ne]
      · rw [ih i hi]
        congr 1
        exact congrArg encodeSentence
          (by simp [List.get_eq_getElem, List.getElem_append_left hi])
      · rw [runInserts_current_index]
        intro he
        exact Nat.ne_of_lt hi (natToString_injective he)
    · have hlen : i = ss.length := by
        simp at h
        omega
      subst hlen
      rw [runInserts_current_index, dbGet_dbPut_same]
      congr 1
      exact congrArg encodeSentence (by simp)

theorem runInserts_fresh (ss : List Sentence) (k : Str)
    (h : ∀ i, i < ss.length → k ≠ natToString i) :
    dbGet (runInserts ss).db k = none := by
  induction ss using List.reverseRecOn with
  | nil => rfl
  | append_singleton ss s ih =>
    rw [runInserts_append]
    simp only [addSentenceToDB]
    rw [dbGet_dbPut_ne]
    · exact ih fun i hi => h i (by simp; omega)
    · rw [runInserts_current_index]
      exact h ss.length (by simp)

theorem runInserts_length (ss : List Sentence) :
    (runInserts ss).db.length = ss.length := by
  induction ss using List.reverseRecOn with
  | nil => rfl
  | append_singleton ss s ih =>
    rw [runInserts_append]
    simp only [addSentenceToDB]
    rw [length_dbPut_of_get_none, ih]
    · simp
    · rw [runInserts_current_index]
      exact runInserts_fresh ss _ fun i hi he =>
        absurd (natToString_injective he) (by omega)

/-! ### Claim C1: insert/get round-trip -/

/-- C1 (amended): writing a sentence whose text contains no `'\0'` byte via
`addSentenceToDB` and reading it back via `getSentenceFromDB` under the id it
was stored at returns the same `(text, count)` pair.  (The count hypotheses
are the `int64_t` typing of `Sentence::second`.) -/
theorem insert_get_roundtrip_nulfree (st : TrainerState) (t : Str) (c : Int)
    (hnul : NUL ∉ t) (h1 : -9223372036854775808 ≤ c) (h2 : c < 9223372036854775808) :
    getSentenceFromDB (addSentenceToDB st (t, c)) st.current_index = Except.ok (t, c) := by
  simp only [getSentenceFromDB, addSentenceToDB]
  rw [dbGet_dbPut_same]
  exact decodeValue_encodeSentence_of_nulFree t c hnul h1 h2

/-- C1 witness: the round-trip at a concrete NUL-free sentence. -/
theorem insert_get_roundtrip_nulfree_witness :
    getSentenceFromDB (addSentenceToDB initState ([97], 5)) initState.current_index =
      Except.ok (([97], 5) : Str × Int) :=
  insert_get_roundtrip_nulfree initState [97] 5 (by decide) (by decide) (by decide)

/-- C1 counterexample: for the sentence `("\0" ++ "7", 3)` the round-trip
returns `("", 7)`, not the stored pair, so the claim as stated (for every
Sentence) is false. -/
theorem insert_get_roundtrip_cex :
    getSentenceFromDB (addSentenceToDB initState ([0, 55], 3)) initState.current_index =
      Except.ok (([], 7) : Str × Int) ∧
    getSentenceFromDB (addSentenceToDB initState ([0, 55], 3)) initState.current_index ≠
      Except.ok (([0, 55], 3) : Str × Int) := by
  constructor
  · decide
  · decide

/-! ### Claim C9: record format, NUL-free round-trip, NUL truncation -/

/-- C9: the stored value is `text ++ '\0' ++ decimal(count)`; for NUL-free
texts `getSentenceFromDB` after `addSentenceToDB` or `updateSentenceInDB`
returns exactly the stored pair; and whenever a read returns at all, the
returned text is the prefix of the stored text before its first NUL byte. -/
theorem record_encoding_spec (st : TrainerState) (idx : Nat) (t : Str) (c : Int)
    (h1 : -9223372036854775808 ≤ c) (h2 : c < 9223372036854775808) :
    dbGet (addSentenceToDB st (t, c)).db (natToString st.current_index) =
      some (t ++ NUL :: intToString c) ∧
    dbGet (updateSentenceInDB st idx (t, c)).db (natToString idx) =
      some (t ++ NUL :: intToString c) ∧
    (NUL ∉ t →
      getSentenceFromDB (addSentenceToDB st (t, c)) st.current_index = Except.ok (t, c) ∧
      getSentenceFromDB (updateSentenceInDB st idx (t, c)) idx = Except.ok (t, c)) ∧
    (∀ t' c',
      getSentenceFromDB (addSentenceToDB st (t, c)) st.current_index = Except.ok (t', c') →
      t' = t.takeWhile (fun b => b != NUL)) := by
  have hadd : dbGet (addSentenceToDB st (t, c)).db (natToString st.current_index) =
      some (encodeSentence (t, c)) := by
    simp only [addSentenceToDB]
    exact dbGet_dbPut_same _ _ _
  have hupd : dbGet (updateSentenceInDB st idx (t, c)).db (natToString idx) =
      some (encodeSentence (t, c)) := by
    simp only [updateSentenceInDB]
    exact dbGet_dbPut_same _ _ _
  refine ⟨hadd, hupd, ?_, ?_⟩
  · intro hnul
    constructor
    · simp only [getSentenceFromDB]
      rw [hadd]
      exact decodeValue_encodeSentence_of_nulFree t c hnul h1 h2
    · simp only [getSentenceFromDB]
      rw [hupd]
      exact decodeValue_encodeSentence_of_nulFree t c hnul h1 h2
  · intro t' c' hok
    simp only [getSentenceFromDB] at hok
    rw [hadd] at hok
    exact decodeValue_encodeSentence_fst t c t' c' hok

/-- C9 witness: the record format and both round-trips at concrete inputs. -/
theorem record_encoding_spec_witness :
    dbGet (addSentenceToDB initState ([104, 105], 2)).db (natToString 0) =
      some ([104, 105] ++ NUL :: intToString 2) ∧
    getSentenceFromDB (addSentenceToDB initState ([104, 105], 2)) 0 =
      Except.ok (([104, 105], 2) : Str × Int) ∧
    getSentenceFromDB (updateSentenceInDB initState 4 ([104, 105], 2)) 4 =
      Except.ok (([104, 105], 2) : Str × Int) := by
  have h := record_encoding_spec initState 4 [104, 105] 2 (by decide) (by decide)
  exact ⟨h.1, (h.2.2.1 (by decide)).1, (h.2.2.1 (by decide)).2⟩

/-! ### Claim C7: update is an upsert with a frame property -/

/-- C7 (amended): `updateSentenceInDB` succeeds on any state (no existence
check); for a NUL-free text, `getSentenceFromDB` on the updated id returns the
new sentence; and the stored value of every other id is exactly what it was
before the update. -/
theorem update_upsert_frame (st : TrainerState) (idx : Nat) (t : Str) (c : Int)
    (hnul : NUL ∉ t) (h1 : -9223372036854775808 ≤ c) (h2 : c < 9223372036854775808) :
    getSentenceFromDB (updateSentenceInDB st idx (t, c)) idx = Except.ok (t, c) ∧
    ∀ j, j ≠ idx → dbGet (updateSentenceInDB st idx (t, c)).db (natToString j) =
      dbGet st.db (natToString j) := by
  constructor
  · simp only [getSentenceFromDB, updateSentenceInDB]
    rw [dbGet_dbPut_same]
    exact decodeValue_encodeSentence_of_nulFree t c hnul h1 h2
  · intro j hj
    simp only [updateSentenceInDB]
    exact dbGet_dbPut_ne _ _ _ _ fun he => hj (natToString_injective he)

/-- C7 witness: update at id 0 of the empty store, frame checked at id 1. -/
theorem update_upsert_frame_witness :
    getSentenceFromDB (updateSentenceInDB initState 0 ([97], 4)) 0 =
      Except.ok (([97], 4) : Str × Int) ∧
    dbGet (updateSentenceInDB initState 0 ([97], 4)).db (natToString 1) =
      dbGet initState.db (natToString 1) := by
  have h := update_upsert_frame initState 0 [97] 4 (by decide) (by decide) (by decide)
  exact ⟨h.1, h.2 1 (by decide)⟩

/-- C7 counterexample: updating with the sentence `("\0" ++ "7", 3)` and
reading back returns `("", 7)`, not the new sentence, so the claim as stated
(for every Sentence) is false. -/
theorem update_upsert_cex :
    getSentenceFromDB (updateSentenceInDB initState 0 ([0, 55], 3)) 0 =
      Except.ok (([], 7) : Str × Int) ∧
    getSentenceFromDB (updateSentenceInDB initState 0 ([0, 55], 3)) 0 ≠
      Except.ok (([0, 55], 3) : Str × Int) := by
  constructor
  · decide
  · decide

/-! ### Claim C10: a failed write does not advance the id counter -/

/-- C10: when the underlying `Put` fails inside `addSentenceToDB`, the
exception is raised before `++current_index_`, so the counter (and hence the
key used by every subsequent successful insert) is unchanged. -/
theorem failed_insert_preserves_index (st : TrainerState) (s s' : Sentence) :
    (addSentenceToDBChecked false st s).2 = some "Failed to write to LevelDB" ∧
    (addSentenceToDBChecked false st s).1.current_index = st.current_index ∧
    addSentenceToDB (addSentenceToDBChecked false st s).1 s' = addSentenceToDB st s' :=
  ⟨rfl, rfl, rfl⟩

/-! ### Claim C3: classification of get failures -/

/-- C3 (amended): `getSentenceFromDB` fails iff the id is absent, or the
stored value lacks the `'\0'` separator, or the byte string after the first
separator does not parse as a 64-bit integer; and reading any id that was
never inserted yields the not-found error. -/
theorem get_error_classification :
    (∀ st idx, getFails st idx = true ↔
      (dbGet st.db (natToString idx) = none ∨
        ∃ v, dbGet st.db (natToString idx) = some v ∧
          (NUL ∉ v ∨ stoll ((v.dropWhile (fun b => b != NUL)).tail) = none))) ∧
    (∀ ss idx, ss.length ≤ idx →
      getSentenceFromDB (runInserts ss) idx = Except.error GetErr.notFound) := by
  constructor
  · intro st idx
    rcases hget : dbGet st.db (natToString idx) with _ | v
    · simp [getFails, getSentenceFromDB, hget]
    · by_cases hnul : NUL ∈ v
      · rcases hst : stoll ((v.dropWhile (fun b => b != NUL)).tail) with _ | c
        · have hgf : getFails st idx = true := by
            simp [getFails, getSentenceFromDB, hget, decodeValue, hnul, hst]
          rw [hgf]
          simp only [true_iff]
          exact Or.inr ⟨v, rfl, Or.inr hst⟩
        · have hgf : getFails st idx = false := by
            simp [getFails, getSentenceFromDB, hget, decodeValue, hnul, hst]
          rw [hgf]
          constructor
          · intro h
            cases h
          · intro h
            rcases h with h | ⟨v', hv', hbad⟩
            · cases h
            · have hveq : v' = v := by
                injection hv' with hvv
                exact hvv.symm
              subst hveq
              rcases hbad with hbad | hbad
              · exact absurd hnul hbad
              · rw [hst] at hbad
                cases hbad
      · have hgf : getFails st idx = true := by
          simp [getFails, getSentenceFromDB, hget, decodeValue, hnul]
        rw [hgf]
        simp only [true_iff]
        exact Or.inr ⟨v, rfl, Or.inl hnul⟩
  · intro ss idx hidx
    have hfresh : dbGet (runInserts ss).db (natToString idx) = none :=
      runInserts_fresh ss _ fun i hi he =>
        absurd (natToString_injective he) (by omega)
    simp [getSentenceFromDB, hfresh]

/-- C3 witness: the not-found branch at a concrete never-inserted id. -/
theorem get_error_classification_witness :
    getSentenceFromDB (runInserts [(([97], 1) : Sentence)]) 5 =
      Except.error GetErr.notFound :=
  get_error_classification.2 [([97], 1)] 5 (by decide)

/-- C3 counterexample: after inserting `("a\0b", 5)` the record is present and
contains the separator, yet the read fails (the count bytes do not parse), so
the claimed "fails iff absent or no separator" is false. -/
theorem get_error_classification_cex :
    getFails (addSentenceToDB initState ([97, 0, 98], 5)) 0 = true ∧
    dbGet (addSentenceToDB initState ([97, 0, 98], 5)).db (natToString 0) =
      some [97, 0, 98, 0, 53] ∧
    NUL ∈ [97, 0, 98, 0, 53] := by
  refine ⟨?_, ?_, ?_⟩
  · decide
  · decide
  · decide

/-! ### Claim C5: fresh sequential ids, no deduplication -/

/-- C5: starting from a fresh store, `n` successful inserts leave
`current_index_ = n`, the `i`-th inserted sentence stored under key
`to_string(i)`, and exactly `n` records (so two inserts of identical text are
never merged). -/
theorem insert_assigns_sequential_ids (ss : List Sentence) :
    (runInserts ss).current_index = ss.length ∧
    (runInserts ss).db.length = ss.length ∧
    ∀ i, (h : i < ss.length) → dbGet (runInserts ss).db (natToString i) =
      some (encodeSentence (ss.get ⟨i, h⟩)) :=
  ⟨runInserts_current_index ss, runInserts_length ss, runInserts_get ss⟩

/-- C5 witness: two inserts of the same text produce two records under
keys 0 and 1. -/
theorem insert_assigns_sequential_ids_witness :
    (runInserts [(([97], 1) : Sentence), ([97], 1)]).current_index = 2 ∧
    (runInserts [(([97], 1) : Sentence), ([97], 1)]).db.length = 2 ∧
    dbGet (runInserts [(([97], 1) : Sentence), ([97], 1)]).db (natToString 1) =
      some (encodeSentence (([97], 1) : Sentence)) :=
  ⟨(insert_assigns_sequential_ids _).1, (insert_assigns_sequential_ids _).2.1,
    (insert_assigns_sequential_ids [(([97], 1) : Sentence), ([97], 1)]).2.2 1 (by decide)⟩

/-! ### Claim C4: scan order -/

theorem strLt_natToString_small : ∀ i < 10, ∀ n < 10, i < n →
    strLt (natToString i) (natToString n) = true := by decide

/-- C4 (amended): a full scan visits records in ascending bytewise
(lexicographic) order of their decimal keys; this equals ascending numeric id
(= insertion) order as long as at most ten records were inserted (ids 0..9),
but not in general. -/
theorem scan_order_small (ss : List Sentence) (hlen : ss.length ≤ 10) :
    scanKeys (runInserts ss) = (List.range ss.length).map natToString := by
  induction ss using List.reverseRecOn with
  | nil => rfl
  | append_singleton ss s ih =>
    have hlen9 : ss.length ≤ 9 := by
      simp at hlen
      omega
    have hkeys := ih (by omega)
    rw [runInserts_append]
    simp only [scanKeys, addSentenceToDB] at hkeys ⊢
    rw [runInserts_current_index]
    rw [dbPut_append_of_lt]
    · rw [List.map_append, hkeys]
      simp [List.range_succ]
    · intro kv hkv
      have hmem : kv.1 ∈ (runInserts ss).db.map Prod.fst := List.mem_map_of_mem _ hkv
      rw [hkeys] at hmem
      rcases List.mem_map.mp hmem with ⟨i, hi, hkeq⟩
      rw [← hkeq]
      have hilt : i < ss.length := List.mem_range.mp hi
      exact strLt_natToString_small i (by omega) ss.length (by omega) hilt

/-- C4 witness: with two records the scan order is the insertion order. -/
theorem scan_order_small_witness :
    scanKeys (runInserts [(([97], 1) : Sentence), ([98], 2)]) =
      (List.range ([(([97], 1) : Sentence), ([98], 2)] : List Sentence).length).map
        natToString :=
  scan_order_small [(([97], 1) : Sentence), ([98], 2)] (by decide)

/-- C4 counterexample: with eleven records the scan visits key "10" right
after "1" and before "2", so scan order is not ascending numeric id order for
corpora with ten or more records. -/
theorem scan_order_cex :
    scanKeys (runInserts (List.replicate 11 (([97], 1) : Sentence))) =
      [[48], [49], [49, 48], [50], [51], [52], [53], [54], [55], [56], [57]] ∧
    scanKeys (runInserts (List.replicate 11 (([97], 1) : Sentence))) ≠
      (List.range 11).map natToString := by
  constructor
  · decide
  · decide

/-! ### Claim C6: the count invariant -/

theorem goodDB_applyOp (st : TrainerState) (op : StoreOp) (hop : opCountOK op = true)
    (h : goodDB st.db) : goodDB (applyOp st op).db := by
  cases op with
  | ins s =>
    intro kv hkv
    simp only [applyOp, addSentenceToDB] at hkv
    rcases mem_dbPut _ _ _ _ hkv with hkv | hkv
    · refine ⟨s.1, s.2, by rw [hkv], ?_⟩
      simpa [opCountOK] using hop
    · exact h kv hkv
  | upd i s =>
    intro kv hkv
    simp only [applyOp, updateSentenceInDB] at hkv
    rcases mem_dbPut _ _ _ _ hkv with hkv | hkv
    · refine ⟨s.1, s.2, by rw [hkv], ?_⟩
      simpa [opCountOK] using hop
    · exact h kv hkv
  | del i =>
    intro kv hkv
    simp only [applyOp, removeSentenceFromDB] at hkv
    exact h kv (mem_dbDelete _ _ _ hkv)

/-- C6 (amended): provided every insert/update in the sequence passes a
sentence with `count ≥ 1` (the store itself performs no check), every record
in the store is the encoding of a sentence with `count ≥ 1`. -/
theorem count_invariant (ops : List StoreOp) (hops : ∀ op ∈ ops, opCountOK op = true) :
    ∀ kv ∈ (runOps ops).db, ∃ t c, kv.2 = encodeSentence (t, c) ∧ 1 ≤ c := by
  have hgen : ∀ l : List StoreOp, ∀ st : TrainerState,
      (∀ op ∈ l, opCountOK op = true) → goodDB st.db → goodDB (l.foldl applyOp st).db := by
    intro l
    induction l with
    | nil => intro st _ h; exact h
    | cons op rest ih =>
      intro st hl h
      exact ih _ (fun o ho => hl o (by simp [ho])) (goodDB_applyOp st op (hl op (by simp)) h)
  exact hgen ops initState hops (by intro kv hkv; simp [initState] at hkv)

/-- C6 witness: after an insert, an update and a delete, the surviving record
encodes a sentence with a positive count. -/
theorem count_invariant_witness :
    ∃ t c, ([98, 0, 51] : Str) = encodeSentence (t, c) ∧ 1 ≤ c :=
  count_invariant [StoreOp.ins ([97], 2), StoreOp.upd 0 ([98], 3), StoreOp.del 5]
    (by decide) ([48], [98, 0, 51]) (by decide)

/-- C6 counterexample: inserting a sentence with count 0 stores a record whose
count is 0, so the unconditional invariant "count ≥ 1 once stored" is false. -/
theorem count_invariant_cex :
    getSentenceFromDB (runOps [StoreOp.ins ([97], 0)]) 0 =
      Except.ok (([97], 0) : Str × Int) ∧
    ¬ (1 ≤ (0 : Int)) := by
  constructor
  · decide
  · decide

/-! ### Claim C2: the `Sorted` helper -/

theorem pairLe_iff {K V : Type} [LinearOrder K] [LinearOrder V] (p q : K × V) :
    pairLe p q = true ↔ (q.2 < p.2 ∨ (p.2 = q.2 ∧ p.1 ≤ q.1)) := by
  simp [pairLe]

theorem pairLe_total {K V : Type} [LinearOrder K] [LinearOrder V] (p q : K × V)
    (h : ¬ pairLe p q = true) : pairLe q p = true := by
  rw [pairLe_iff] at h ⊢
  push_neg at h
  obtain ⟨h1, h2⟩ := h
  rcases lt_trichotomy p.2 q.2 with hlt | heq | hgt
  · exact Or.inl hlt
  · exact Or.inr ⟨heq.symm, (h2 heq).le⟩
  · exact absurd hgt (not_lt.mpr h1)

theorem pairLe_trans {K V : Type} [LinearOrder K] [LinearOrder V] (p q r : K × V)
    (h1 : pairLe p q = true) (h2 : pairLe q r = true) : pairLe p r = true := by
  rw [pairLe_iff] at h1 h2 ⊢
  rcases h1 with h1 | ⟨he1, hk1⟩ <;> rcases h2 with h2 | ⟨he2, hk2⟩
  · exact Or.inl (h2.trans h1)
  · exact Or.inl (he2 ▸ h1)
  · exact Or.inl (he1 ▸ h2)
  · exact Or.inr ⟨he1.trans he2, hk1.trans hk2⟩

theorem mem_insertPair {K V : Type} [LinearOrder K] [LinearOrder V] (x y : K × V) :
    ∀ l : List (K × V), y ∈ insertPair x l → y = x ∨ y ∈ l := by
  intro l
  induction l with
  | nil =>
    intro h
    simp [insertPair] at h
    exact Or.inl h
  | cons z zs ih =>
    intro h
    by_cases hc : pairLe x z = true
    · simp [insertPair, hc] at h
      rcases h with h | h | h
      · exact Or.inl h
      · exact Or.inr (by simp [h])
      · exact Or.inr (by simp [h])
    · simp [insertPair, hc] at h
      rcases h with h | h
      · exact Or.inr (by simp [h])
      · rcases ih h with h' | h'
        · exact Or.inl h'
        · exact Or.inr (by simp [h'])

theorem insertPair_perm {K V : Type} [LinearOrder K] [LinearOrder V] (x : K × V) :
    ∀ l : List (K × V), (insertPair x l).Perm (x :: l) := by
  intro l
  induction l with
  | nil => exact List.Perm.refl _
  | cons y ys ih =>
    by_cases hc : pairLe x y = true
    · rw [insertPair, if_pos hc]
    · rw [insertPair, if_neg hc]
      exact (ih.cons y).trans (List.Perm.swap x y ys)

theorem pairwise_insertPair {K V : Type} [LinearOrder K] [LinearOrder V] (x : K × V) :
    ∀ l : List (K × V), List.Pairwise (fun a b => pairLe a b = true) l →
      List.Pairwise (fun a b => pairLe a b = true) (insertPair x l) := by
  intro l
  induction l with
  | nil =>
    intro _
    simp [insertPair]
  | cons y ys ih =>
    intro h
    rcases List.pairwise_cons.mp h with ⟨hy, hys⟩
    by_cases hc : pairLe x y = true
    · rw [insertPair, if_pos hc]
      refine List.pairwise_cons.mpr ⟨?_, h⟩
      intro z hz
      rcases List.mem_cons.mp hz with hz | hz
      · rw [hz]
        exact hc
      · exact pairLe_trans x y z hc (hy z hz)
    · rw [insertPair, if_neg hc]
      refine List.pairwise_cons.mpr ⟨?_, ih hys⟩
      intro z hz
      rcases mem_insertPair x z ys hz with hz | hz
      · rw [hz]
        exact pairLe_total x y hc
      · exact hy z hz

theorem Sorted_perm {K V : Type} [LinearOrder K] [LinearOrder V] :
    ∀ m : List (K × V), (Sorted m).Perm m := by
  intro m
  induction m with
  | nil => exact List.Perm.refl _
  | cons x xs ih =>
    have : Sorted (x :: xs) = insertPair x (Sorted xs) := rfl
    rw [this]
    exact (insertPair_perm x (Sorted xs)).trans (ih.cons x)

theorem Sorted_pairwise {K V : Type} [LinearOrder K] [LinearOrder V] :
    ∀ m : List (K × V), List.Pairwise (fun a b => pairLe a b = true) (Sorted m) := by
  intro m
  induction m with
  | nil => exact List.Pairwise.nil
  | cons x xs ih => exact pairwise_insertPair x (Sorted xs) ih

/-- C2: `Sorted` returns a permutation of its input in which values are
non-increasing, and among pairs with equal values the one with the smaller key
comes first. -/
theorem Sorted_spec {K V : Type} [LinearOrder K] [LinearOrder V] (m : List (K × V)) :
    (Sorted m).Perm m ∧
    List.Pairwise (fun p q => q.2 ≤ p.2 ∧ (p.2 = q.2 → p.1 ≤ q.1)) (Sorted m) := by
  refine ⟨Sorted_perm m, (Sorted_pairwise m).imp ?_⟩
  intro p q h
  rw [pairLe_iff] at h
  rcases h with h | ⟨he, hk⟩
  · exact ⟨h.le, fun he => absurd (he ▸ h) (lt_irrefl _)⟩
  · exact ⟨he.ge, fun _ => hk⟩

/-- C2 witness: the specification evaluated on a concrete list of pairs. -/
theorem Sorted_spec_witness :
    (Sorted [((2 : Nat), (5 : Int)), (1, 5), (3, 7)]).Perm
      [((2 : Nat), (5 : Int)), (1, 5), (3, 7)] ∧
    List.Pairwise (fun p q => q.2 ≤ p.2 ∧ (p.2 = q.2 → p.1 ≤ q.1))
      (Sorted [((2 : Nat), (5 : Int)), (1, 5), (3, 7)]) :=
  Sorted_spec [((2 : Nat), (5 : Int)), (1, 5), (3, 7)]

end sentencepiece
